import Mathlib

set_option maxRecDepth 100000

/-!
Shallow embedding of the coinranking/substreams DEX core:
byte decoders and price math (common/src/lib.rs), the universal-dex
block aggregator (dexes/universal-dex/src), the uniswap-v3 period-bucket
and rolling-volume store handlers (dexes/uniswap-v3/src/stores), and the
decimal formatter (dexes/uniswap-v3/src/utils.rs).

Modelling conventions:
- EVM bytes are values of type Fin 256; byte slices are lists.
- Rust BigInt is Lean Int; Rust BigDecimal values are modelled by
  BigDec, an integer mantissa with a base-10 scale — the bigdecimal
  crate's own representation; the handlers only add, subtract and test
  against zero.
- Keyed host stores are association lists from structured keys to ℚ.
  The source builds string keys by joining the pool address, period and
  token tag with a colon separator; on colon-free pool addresses that
  encoding is injective, so the structured key is a faithful renaming.
- Within one block, store modules run in dependency order, and a
  downstream read with get_last observes the upstream module's writes
  for the current block (substreams store semantics for get mode).
-/

/-! ## Byte decoders (common/src/lib.rs) -/

/-- A byte. -/
abbrev Byte := Fin 256

/-- Big-endian unsigned interpretation of a byte string
(num_bigint from_bytes_be with plus sign). -/
def beBytesToNat (bytes : List Byte) : Nat :=
  bytes.foldl (fun acc b => acc * 256 + b.val) 0

/-- common/src/lib.rs int256_to_bigint: exactly 32 bytes are interpreted
as a two's-complement signed 256-bit integer; any other length gives 0. -/
def int256_to_bigint (bytes : List Byte) : Int :=
  if bytes.length ≠ 32 then 0
  else
    let u := beBytesToNat bytes
    if u < 2 ^ 255 then (u : Int) else (u : Int) - 2 ^ 256

/-- common/src/lib.rs uint160_to_bigint: exactly 32 bytes; the value is the
big-endian unsigned integer of the low (last) 20 bytes. -/
def uint160_to_bigint (bytes : List Byte) : Int :=
  if bytes.length ≠ 32 then 0
  else (beBytesToNat (bytes.drop (bytes.length - 20)) : Int)

/-- common/src/lib.rs uint256_to_bigint: exactly 32 bytes, big-endian
unsigned. -/
def uint256_to_bigint (bytes : List Byte) : Int :=
  if bytes.length ≠ 32 then 0
  else (beBytesToNat bytes : Int)

/-- common/src/lib.rs uint112_to_bigint: exactly 32 bytes; the value is the
big-endian unsigned integer of the low (last) 14 bytes. -/
def uint112_to_bigint (bytes : List Byte) : Int :=
  if bytes.length ≠ 32 then 0
  else (beBytesToNat (bytes.drop (bytes.length - 14)) : Int)

/-- common/src/lib.rs calculate_sqrt_price_x96: 0 when reserve0 is zero,
otherwise the integer square root of (reserve1 shifted left by 192 bits,
divided by reserve0); num_bigint division truncates and its sqrt is the
floor square root, which Int.ediv and Int.sqrt reproduce on non-negative
operands. -/
def calculate_sqrt_price_x96 (reserve0 reserve1 : Int) : Int :=
  if reserve0 = 0 then 0
  else Int.sqrt ((reserve1 * 2 ^ 192) / reserve0)

/-! ### Lemmas about big-endian decoding -/

theorem beBytesToNat_append (a b : List Byte) :
    beBytesToNat (a ++ b) = beBytesToNat a * 256 ^ b.length + beBytesToNat b := by
  suffices h : ∀ (l : List Byte) (acc : Nat),
      l.foldl (fun acc b => acc * 256 + b.val) acc
        = acc * 256 ^ l.length + l.foldl (fun acc b => acc * 256 + b.val) 0 by
    unfold beBytesToNat
    rw [List.foldl_append, h b]
  intro l
  induction l with
  | nil => intro acc; simp
  | cons x xs ih =>
    intro acc
    simp only [List.foldl_cons, List.length_cons, Nat.zero_mul, Nat.zero_add]
    rw [ih (acc * 256 + x.val), ih x.val]
    ring

theorem beBytesToNat_lt (l : List Byte) : beBytesToNat l < 256 ^ l.length := by
  induction l using List.reverseRecOn with
  | nil => simp [beBytesToNat]
  | append_singleton xs x ih =>
    rw [beBytesToNat_append]
    simp only [List.length_append, List.length_singleton]
    have hx : beBytesToNat [x] < 256 := by
      simp [beBytesToNat]
    calc beBytesToNat xs * 256 ^ 1 + beBytesToNat [x]
        < beBytesToNat xs * 256 + 256 := by omega
      _ ≤ 256 ^ xs.length * 256 := by nlinarith
      _ = 256 ^ (xs.length + 1) := by ring

theorem beBytesToNat_drop_eq_mod (l : List Byte) (k : Nat) :
    beBytesToNat (l.drop k) = beBytesToNat l % 256 ^ (l.length - k) := by
  have hsplit : beBytesToNat l
      = beBytesToNat (l.take k) * 256 ^ (l.length - k) + beBytesToNat (l.drop k) := by
    conv_lhs => rw [← List.take_append_drop k l]
    rw [beBytesToNat_append, List.length_drop]
  rw [hsplit, Nat.mul_comm, Nat.mul_add_mod]
  exact (Nat.mod_eq_of_lt (List.length_drop k l ▸ beBytesToNat_lt (l.drop k))).symm

/-! ## Claims about the byte decoders and price math -/

/-- C9: for a byte slice of length exactly 32, int256_to_bigint returns the
two's-complement big-endian signed interpretation of all 32 bytes — the
unique integer congruent to the unsigned big-endian value modulo 2^256
lying in the signed 256-bit range; any other length returns zero. -/
theorem int256_decode_spec (l : List Byte) :
    (l.length = 32 →
      int256_to_bigint l % 2 ^ 256 = (beBytesToNat l : Int) % 2 ^ 256 ∧
      -(2 ^ 255) ≤ int256_to_bigint l ∧ int256_to_bigint l < 2 ^ 255) ∧
    (l.length ≠ 32 → int256_to_bigint l = 0) := by
  constructor
  · intro h32
    have hu : beBytesToNat l < 2 ^ 256 := by
      have := beBytesToNat_lt l
      rw [h32] at this
      calc beBytesToNat l < 256 ^ 32 := this
        _ = 2 ^ 256 := by norm_num
    unfold int256_to_bigint
    rw [if_neg (by omega)]
    by_cases hlt : beBytesToNat l < 2 ^ 255
    · rw [if_pos hlt]
      refine ⟨rfl, ?_, ?_⟩
      · exact le_trans (by norm_num) (Int.natCast_nonneg _)
      · exact_mod_cast hlt
    · rw [if_neg hlt]
      push_neg at hlt
      have hpow : (2 : Int) ^ 256 = 2 ^ 255 + 2 ^ 255 := by ring
      refine ⟨by simp [Int.sub_emod], ?_, ?_⟩
      · have : (2 : Int) ^ 255 ≤ (beBytesToNat l : Int) := by exact_mod_cast hlt
        linarith
      · have : (beBytesToNat l : Int) < 2 ^ 256 := by exact_mod_cast hu
        have h255 : (0 : Int) < 2 ^ 255 := by positivity
        linarith
  · intro h32
    unfold int256_to_bigint
    rw [if_pos h32]

/-- C9 witness at the all-0xff word (two's-complement value −1). -/
theorem int256_decode_spec_witness :
    (List.replicate 32 (255 : Byte)).length = 32 ∧
    int256_to_bigint (List.replicate 32 (255 : Byte)) % 2 ^ 256
      = (beBytesToNat (List.replicate 32 (255 : Byte)) : Int) % 2 ^ 256 :=
  ⟨by decide, ((int256_decode_spec (List.replicate 32 255)).1 (by decide)).1⟩

/-- C10: on a 32-byte word, uint160_to_bigint keeps only the low 20 bytes
and uint112_to_bigint only the low 14 bytes — each result equals the full
big-endian word reduced modulo 2^160 resp. 2^112, so it is below that
bound and the high garbage bytes never reach the decoded address,
square-root price or reserve value. -/
theorem uint160_uint112_low_bytes (l : List Byte) (h : l.length = 32) :
    uint160_to_bigint l = (beBytesToNat l : Int) % 2 ^ 160 ∧
    uint160_to_bigint l < 2 ^ 160 ∧
    uint112_to_bigint l = (beBytesToNat l : Int) % 2 ^ 112 ∧
    uint112_to_bigint l < 2 ^ 112 := by
  have h160 : beBytesToNat (l.drop (l.length - 20)) = beBytesToNat l % 2 ^ 160 := by
    rw [beBytesToNat_drop_eq_mod]
    congr 1
    rw [h]
    norm_num
  have h112 : beBytesToNat (l.drop (l.length - 14)) = beBytesToNat l % 2 ^ 112 := by
    rw [beBytesToNat_drop_eq_mod]
    congr 1
    rw [h]
    norm_num
  unfold uint160_to_bigint uint112_to_bigint
  rw [if_neg (by omega), if_neg (by omega), h160, h112]
  refine ⟨by push_cast; ring, ?_, by push_cast; ring, ?_⟩
  · have : beBytesToNat l % 2 ^ 160 < 2 ^ 160 := Nat.mod_lt _ (by norm_num)
    exact_mod_cast this
  · have : beBytesToNat l % 2 ^ 112 < 2 ^ 112 := Nat.mod_lt _ (by norm_num)
    exact_mod_cast this

/-- C10 witness: a word whose high 12 bytes are garbage 0xff and whose low
20 bytes are zero decodes to 0 under uint160_to_bigint. -/
theorem uint160_uint112_low_bytes_witness :
    (List.replicate 12 (255 : Byte) ++ List.replicate 20 (0 : Byte)).length = 32 ∧
    uint160_to_bigint (List.replicate 12 (255 : Byte) ++ List.replicate 20 (0 : Byte))
      = (beBytesToNat (List.replicate 12 (255 : Byte) ++ List.replicate 20 (0 : Byte)) : Int)
          % 2 ^ 160 :=
  ⟨by decide,
   (uint160_uint112_low_bytes
      (List.replicate 12 (255 : Byte) ++ List.replicate 20 (0 : Byte)) (by decide)).1⟩

/-- C5: calculate_sqrt_price_x96 returns 0 when reserve0 = 0, and for
positive reserve0 it returns the floor of the real square root of the
exact rational reserve1·2^192 / reserve0: the unique s with
s² ≤ reserve1·2^192 / reserve0 < (s+1)², stated multiplicatively. -/
theorem calculate_sqrt_price_x96_spec (r0 r1 : Int) (h0 : 0 ≤ r0) (h1 : 0 ≤ r1) :
    (r0 = 0 → calculate_sqrt_price_x96 r0 r1 = 0) ∧
    (0 < r0 →
      calculate_sqrt_price_x96 r0 r1 ^ 2 * r0 ≤ r1 * 2 ^ 192 ∧
      r1 * 2 ^ 192 < (calculate_sqrt_price_x96 r0 r1 + 1) ^ 2 * r0) := by
  constructor
  · intro hz
    unfold calculate_sqrt_price_x96
    rw [if_pos hz]
  · intro hpos
    unfold calculate_sqrt_price_x96
    rw [if_neg (by omega)]
    set a : Int := r1 * 2 ^ 192 with ha
    have hanneg : 0 ≤ a := by positivity
    set m : Int := a / r0 with hm
    have hmnneg : 0 ≤ m := Int.ediv_nonneg hanneg h0
    have hsq_le : Int.sqrt m ^ 2 ≤ m := by
      unfold Int.sqrt
      calc ((Nat.sqrt m.toNat : Int)) ^ 2
          = ((Nat.sqrt m.toNat ^ 2 : Nat) : Int) := by push_cast; ring
        _ ≤ (m.toNat : Int) := by exact_mod_cast Nat.sqrt_le' m.toNat
        _ = m := Int.toNat_of_nonneg hmnneg
    have hlt_sq : m < (Int.sqrt m + 1) ^ 2 := by
      unfold Int.sqrt
      calc m = (m.toNat : Int) := (Int.toNat_of_nonneg hmnneg).symm
        _ < (((Nat.sqrt m.toNat + 1) ^ 2 : Nat) : Int) := by
            exact_mod_cast Nat.lt_succ_sqrt' m.toNat
        _ = ((Nat.sqrt m.toNat : Int) + 1) ^ 2 := by push_cast; ring
    have hdm : r0 * m + a % r0 = a := Int.ediv_add_emod a r0
    have hmod0 : 0 ≤ a % r0 := Int.emod_nonneg a (by omega)
    have hmodlt : a % r0 < r0 := Int.emod_lt_of_pos a hpos
    constructor
    · have hstep : Int.sqrt m ^ 2 * r0 ≤ m * r0 := mul_le_mul_of_nonneg_right hsq_le h0
      nlinarith [hstep, hdm, hmod0]
    · have h2' : (m + 1) * r0 ≤ (Int.sqrt m + 1) ^ 2 * r0 :=
        mul_le_mul_of_nonneg_right (Int.add_one_le_iff.mpr hlt_sq) h0
      nlinarith [hdm, hmodlt, h2']

/-- C5 witness at the spec's own example reserves (1000, 4000). -/
theorem calculate_sqrt_price_x96_spec_witness :
    (0 : Int) < 1000 ∧
    calculate_sqrt_price_x96 1000 4000 ^ 2 * 1000 ≤ 4000 * 2 ^ 192 ∧
    4000 * 2 ^ 192 < (calculate_sqrt_price_x96 1000 4000 + 1) ^ 2 * 1000 :=
  ⟨by norm_num,
   (calculate_sqrt_price_x96_spec 1000 4000 (by norm_num) (by norm_num)).2 (by norm_num)⟩

/-! ## Decimal formatter (dexes/uniswap-v3/src/utils.rs format_bigdecimal)

The source operates on the decimal's string rendering: find the first
decimal point, truncate the string to at most 18 characters after it,
pop trailing zero characters, pop one trailing decimal point, and map an
empty result to "0". Renderings are ASCII, so Rust byte indices are
character indices. The first-dot index from find is the length of the
longest dot-free head, so it is modelled with takeWhile/dropWhile. -/

/-- The final step of the trailing-zero loop: after zeros are removed the
source pops one trailing decimal point if present (here on the reversed
string, so a leading one). -/
def stripLeadingDot (r : List Char) : List Char :=
  match r with
  | [] => []
  | c :: rest => if c = '.' then rest else c :: rest

/-- The body of the found-a-dot branch: truncate to at most 18 characters
after the first dot (found at index takeWhile-length), drop the trailing
zero characters, drop one then-trailing dot. -/
def truncAndStrip (s : List Char) : List Char :=
  (stripLeadingDot
    (((s.take (min ((s.takeWhile (fun c => ¬ c = '.')).length + 1 + 18)
        s.length)).reverse).dropWhile (fun c => c = '0'))).reverse

/-- dexes/uniswap-v3/src/utils.rs format_bigdecimal on the rendered
string: when the string has no decimal point it is left alone, otherwise
it is truncated and stripped; an empty result becomes "0". -/
def format_bigdecimal (s : List Char) : List Char :=
  if s.dropWhile (fun c => ¬ c = '.') = [] then
    if s = [] then ['0'] else s
  else if truncAndStrip s = [] then ['0']
  else truncAndStrip s

/-- A rendering in scientific notation carries an exponent marker. -/
def isScientificRendering (s : List Char) : Bool :=
  s.any (fun c => c = 'e' ∨ c = 'E')

theorem dropWhile_append_exists {α : Type} (p : α → Bool) (l : List α) :
    ∃ u, u ++ l.dropWhile p = l := by
  induction l with
  | nil => exact ⟨[], rfl⟩
  | cons x xs ih =>
    rw [List.dropWhile_cons]
    by_cases h : p x
    · obtain ⟨u, hu⟩ := ih
      exact ⟨x :: u, by simp [h, hu]⟩
    · exact ⟨[], by simp [h]⟩

theorem dropWhile_head_false {α : Type} (p : α → Bool) (l : List α) {c : α}
    {rest : List α} (h : l.dropWhile p = c :: rest) : p c = false := by
  induction l with
  | nil => simp at h
  | cons x xs ih =>
    rw [List.dropWhile_cons] at h
    by_cases hx : p x
    · rw [if_pos hx] at h
      exact ih h
    · rw [if_neg hx] at h
      cases h
      simpa using hx

theorem stripLeadingDot_dot (rest : List Char) :
    stripLeadingDot ('.' :: rest) = rest := by
  simp [stripLeadingDot]

theorem stripLeadingDot_ne (c : Char) (rest : List Char) (hc : ¬ c = '.') :
    stripLeadingDot (c :: rest) = c :: rest := by
  simp [stripLeadingDot, hc]

theorem stripLeadingDot_append_exists (r : List Char) :
    ∃ u, u ++ stripLeadingDot r = r := by
  cases r with
  | nil => exact ⟨[], rfl⟩
  | cons c rest =>
    by_cases hc : c = '.'
    · exact ⟨[c], by simp [stripLeadingDot, hc]⟩
    · exact ⟨[], by simp [stripLeadingDot, hc]⟩

theorem truncAndStrip_append_exists (s : List Char) :
    ∃ w, truncAndStrip s ++ w = s := by
  set n := min ((s.takeWhile (fun c => ¬ c = '.')).length + 1 + 18) s.length with hn
  obtain ⟨u, hu⟩ := dropWhile_append_exists (fun c => c = '0') (s.take n).reverse
  obtain ⟨v, hv⟩ :=
    stripLeadingDot_append_exists (((s.take n).reverse).dropWhile (fun c => c = '0'))
  refine ⟨v.reverse ++ u.reverse ++ s.drop n, ?_⟩
  have htake : (s.take n).reverse = u ++ (v ++ stripLeadingDot
      (((s.take n).reverse).dropWhile (fun c => c = '0'))) := by
    rw [hv, hu]
  have ht : s.take n = (stripLeadingDot
      (((s.take n).reverse).dropWhile (fun c => c = '0'))).reverse
        ++ (v.reverse ++ u.reverse) := by
    have := congrArg List.reverse htake
    simpa [List.reverse_append] using this
  have hts : truncAndStrip s = (stripLeadingDot
      (((s.take n).reverse).dropWhile (fun c => c = '0'))).reverse := by
    rw [truncAndStrip, ← hn]
  rw [hts]
  conv_rhs => rw [← List.take_append_drop n s, ht]
  simp [List.append_assoc]

theorem truncAndStrip_length_le (s : List Char) :
    (truncAndStrip s).length
      ≤ min ((s.takeWhile (fun c => ¬ c = '.')).length + 1 + 18) s.length := by
  set n := min ((s.takeWhile (fun c => ¬ c = '.')).length + 1 + 18) s.length with hn
  have h1 : (truncAndStrip s).length
      ≤ (((s.take n).reverse).dropWhile (fun c => c = '0')).length := by
    rw [truncAndStrip, ← hn, List.length_reverse]
    obtain ⟨v, hv⟩ :=
      stripLeadingDot_append_exists (((s.take n).reverse).dropWhile (fun c => c = '0'))
    calc (stripLeadingDot (((s.take n).reverse).dropWhile (fun c => c = '0'))).length
        ≤ v.length + (stripLeadingDot
            (((s.take n).reverse).dropWhile (fun c => c = '0'))).length := by omega
      _ = (((s.take n).reverse).dropWhile (fun c => c = '0')).length := by
          rw [← List.length_append, hv]
  calc (truncAndStrip s).length
      ≤ (((s.take n).reverse).dropWhile (fun c => c = '0')).length := h1
    _ ≤ ((s.take n).reverse).length := by
        obtain ⟨u, hu⟩ := dropWhile_append_exists (fun c => c = '0') (s.take n).reverse
        calc (((s.take n).reverse).dropWhile (fun c => c = '0')).length
            ≤ u.length
              + (((s.take n).reverse).dropWhile (fun c => c = '0')).length := by omega
          _ = ((s.take n).reverse).length := by rw [← List.length_append, hu]
    _ = (s.take n).length := List.length_reverse _
    _ = min n s.length := List.length_take n s
    _ ≤ n := min_le_left _ _

/-- C6 counterexample: the scientific rendering "1.5e-20" contains a
decimal point and a trailing zero character, so the formatter pops the
exponent's zero and returns "1.5e-2" — the rendering is not passed
through unchanged. -/
theorem format_bigdecimal_scientific_not_preserved :
    isScientificRendering ['1', '.', '5', 'e', '-', '2', '0'] = true ∧
    format_bigdecimal ['1', '.', '5', 'e', '-', '2', '0']
      = ['1', '.', '5', 'e', '-', '2'] ∧
    format_bigdecimal ['1', '.', '5', 'e', '-', '2', '0']
      ≠ ['1', '.', '5', 'e', '-', '2', '0'] := by
  refine ⟨by decide, by decide, by decide⟩

/-- C6 (amended): format_bigdecimal truncates without rounding (the output
is "0" or a prefix of the input), keeps at most 18 characters after any
decimal point, never returns the empty string, and on single-dot inputs
never ends with a dot nor with a zero digit while a dot remains; inputs
without a decimal point — scientific or not — pass through unchanged,
but a scientific rendering containing a dot is truncated and stripped
like any other string and may be altered. -/
theorem format_bigdecimal_amended (s : List Char) :
    ('.' ∉ s → format_bigdecimal s = if s = [] then ['0'] else s) ∧
    format_bigdecimal s ≠ [] ∧
    (format_bigdecimal s = ['0'] ∨ ∃ w, format_bigdecimal s ++ w = s) ∧
    (∀ p2 post, format_bigdecimal s = p2 ++ '.' :: post → post.length ≤ 18) ∧
    (List.count '.' s ≤ 1 → '.' ∈ format_bigdecimal s →
        (format_bigdecimal s).getLast? ≠ some '0') ∧
    (List.count '.' s ≤ 1 → (format_bigdecimal s).getLast? ≠ some '.') := by
  by_cases hrest : s.dropWhile (fun c => ¬ c = '.') = []
  · -- no decimal point anywhere in s
    have hnodot : ∀ x ∈ s, ¬ x = '.' := by
      have := List.dropWhile_eq_nil_iff.mp hrest
      simpa using this
    have hfmt : format_bigdecimal s = if s = [] then ['0'] else s := by
      rw [format_bigdecimal, if_pos hrest]
    refine ⟨fun _ => hfmt, ?_, ?_, ?_, ?_, ?_⟩
    · rw [hfmt]; by_cases hs : s = [] <;> simp [hs]
    · rw [hfmt]; by_cases hs : s = []
      · left; rw [if_pos hs]
      · right; exact ⟨[], by rw [if_neg hs, List.append_nil]⟩
    · intro p2 post hdec
      exfalso
      have hmem : '.' ∈ format_bigdecimal s := by
        rw [hdec]; exact List.mem_append_right _ (List.mem_cons_self _ _)
      rw [hfmt] at hmem
      by_cases hs : s = []
      · rw [if_pos hs] at hmem; simp at hmem
      · rw [if_neg hs] at hmem; exact hnodot _ hmem rfl
    · intro _ hmem
      exfalso
      rw [hfmt] at hmem
      by_cases hs : s = []
      · rw [if_pos hs] at hmem; simp at hmem
      · rw [if_neg hs] at hmem; exact hnodot _ hmem rfl
    · intro _
      rw [hfmt]
      by_cases hs : s = []
      · rw [if_pos hs]; simp
      · rw [if_neg hs]
        intro hlast
        exact hnodot _ (List.mem_of_getLast?_eq_some hlast) rfl
  · -- s has a first decimal point, at index (takeWhile length)
    obtain ⟨c, drest, hcons⟩ : ∃ c drest, s.dropWhile (fun c => ¬ c = '.') = c :: drest := by
      cases hh : s.dropWhile (fun c => ¬ c = '.') with
      | nil => exact absurd hh hrest
      | cons c drest => exact ⟨c, drest, rfl⟩
    have hcdot : c = '.' := by
      have := dropWhile_head_false (fun c => ¬ c = '.') s hcons
      simpa using this
    subst hcdot
    have hsplit : s.takeWhile (fun c => ¬ c = '.') ++ '.' :: drest = s := by
      conv_rhs => rw [← List.takeWhile_append_dropWhile (fun c => ¬ c = '.') s]
      rw [hcons]
    have hpredot : ∀ x ∈ s.takeWhile (fun c => ¬ c = '.'), ¬ x = '.' := by
      intro x hx
      have := List.mem_takeWhile_imp hx
      simpa using this
    have hdotmem : '.' ∈ s := by
      rw [← hsplit]; exact List.mem_append_right _ (List.mem_cons_self _ _)
    have hfmt : format_bigdecimal s
        = if truncAndStrip s = [] then ['0'] else truncAndStrip s := by
      rw [format_bigdecimal, if_neg hrest]
    set n := min ((s.takeWhile (fun c => ¬ c = '.')).length + 1 + 18) s.length with hn
    have htsr : truncAndStrip s
        = (stripLeadingDot
            (((s.take n).reverse).dropWhile (fun c => c = '0'))).reverse := by
      rw [truncAndStrip, ← hn]
    obtain ⟨w0, hw0⟩ := truncAndStrip_append_exists s
    have hlen0 : (truncAndStrip s).length
        ≤ (s.takeWhile (fun c => ¬ c = '.')).length + 1 + 18 :=
      le_trans (truncAndStrip_length_le s) (min_le_left _ _)
    have hcount_take : List.count '.' (s.take n) ≤ List.count '.' s := by
      conv_rhs => rw [← List.take_append_drop n s]
      rw [List.count_append]
      omega
    obtain ⟨u1, hu1⟩ := dropWhile_append_exists (fun c => c = '0') (s.take n).reverse
    have hcount_r : List.count '.' (((s.take n).reverse).dropWhile (fun c => c = '0'))
        ≤ List.count '.' (s.take n) := by
      have hcc := congrArg (List.count '.') hu1
      rw [List.count_append, List.count_reverse] at hcc
      omega
    refine ⟨fun hnd => absurd hdotmem hnd, ?_, ?_, ?_, ?_, ?_⟩
    · rw [hfmt]; by_cases hts : truncAndStrip s = [] <;> simp [hts]
    · rw [hfmt]; by_cases hts : truncAndStrip s = []
      · left; rw [if_pos hts]
      · right; exact ⟨w0, by rw [if_neg hts]; exact hw0⟩
    · intro p2 post hdec
      rw [hfmt] at hdec
      by_cases hts : truncAndStrip s = []
      · rw [if_pos hts] at hdec
        exfalso
        have hm : '.' ∈ (['0'] : List Char) := by
          rw [hdec]; exact List.mem_append_right _ (List.mem_cons_self _ _)
        simp at hm
      · rw [if_neg hts] at hdec
        have hs2 : s = p2 ++ '.' :: (post ++ w0) := by
          rw [← hw0, hdec]
          simp [List.append_assoc]
        have hp2 : (s.takeWhile (fun c => ¬ c = '.')).length ≤ p2.length := by
          by_contra hlt
          rw [not_le] at hlt
          have h1 : s.drop p2.length = '.' :: (post ++ w0) := by
            conv_lhs => rw [hs2]
            exact List.drop_left p2 _
          have h2 : s.drop p2.length
              = (s.takeWhile (fun c => ¬ c = '.')).drop p2.length ++ '.' :: drest := by
            conv_lhs => rw [← hsplit]
            exact List.drop_append_of_le_length (le_of_lt hlt)
          cases hpre2 : (s.takeWhile (fun c => ¬ c = '.')).drop p2.length with
          | nil =>
            have hlen := congrArg List.length hpre2
            rw [List.length_drop] at hlen
            simp only [List.length_nil] at hlen
            omega
          | cons y ys =>
            have hy : y ∈ s.takeWhile (fun c => ¬ c = '.') :=
              List.drop_subset _ _ (by rw [hpre2]; exact List.mem_cons_self _ _)
            have h3 := h2.symm.trans h1
            rw [hpre2] at h3
            simp only [List.cons_append, List.cons.injEq] at h3
            exact hpredot y hy h3.1
        have houtlen : (truncAndStrip s).length = p2.length + 1 + post.length := by
          rw [hdec]
          simp only [List.length_append, List.length_cons]
          omega
        omega
    · intro hcnt hmem
      rw [hfmt] at hmem ⊢
      by_cases hts : truncAndStrip s = []
      · rw [if_pos hts] at hmem; simp at hmem
      · rw [if_neg hts] at hmem ⊢
        rw [htsr] at hts hmem ⊢
        rw [List.getLast?_reverse]
        rw [List.mem_reverse] at hmem
        cases hr : ((s.take n).reverse).dropWhile (fun c => c = '0') with
        | nil =>
          rw [hr] at hts
          simp [stripLeadingDot] at hts
        | cons c rest =>
          rw [hr] at hmem
          by_cases hc : c = '.'
          · subst hc
            rw [stripLeadingDot_dot] at hmem
            exfalso
            have hone : 0 < List.count '.' rest := List.count_pos_iff.mpr hmem
            rw [hr] at hcount_r
            simp [List.count_cons] at hcount_r
            omega
          · rw [stripLeadingDot_ne c rest hc]
            have hc0 := dropWhile_head_false (fun c => c = '0') (s.take n).reverse hr
            simp only [decide_eq_false_iff_not] at hc0
            rw [List.head?_cons]
            intro hsome
            exact hc0 (Option.some.inj hsome)
    · intro hcnt
      rw [hfmt]
      by_cases hts : truncAndStrip s = []
      · rw [if_pos hts]; simp
      · rw [if_neg hts]
        rw [htsr] at hts ⊢
        rw [List.getLast?_reverse]
        cases hr : ((s.take n).reverse).dropWhile (fun c => c = '0') with
        | nil =>
          rw [hr] at hts
          simp [stripLeadingDot] at hts
        | cons c rest =>
          by_cases hc : c = '.'
          · subst hc
            rw [stripLeadingDot_dot]
            cases hrest2 : rest with
            | nil => simp
            | cons d rest2 =>
              rw [List.head?_cons]
              intro hsome
              have hd : d = '.' := Option.some.inj hsome
              subst hd
              rw [hr, hrest2] at hcount_r
              simp [List.count_cons] at hcount_r
              omega
          · rw [stripLeadingDot_ne c rest hc]
            rw [List.head?_cons]
            intro hsome
            exact hc (Option.some.inj hsome)

/-- C6 witness for the amended statement at the plain rendering "12.30". -/
theorem format_bigdecimal_amended_witness :
    List.count '.' ['1', '2', '.', '3', '0'] ≤ 1 ∧
    (format_bigdecimal ['1', '2', '.', '3', '0']).getLast? ≠ some '.' :=
  ⟨by decide, (format_bigdecimal_amended ['1', '2', '.', '3', '0']).2.2.2.2.2 (by decide)⟩

/-! ## Universal-dex block aggregator (dexes/universal-dex/src)

A log entry carries the emitting contract address, the topic words and
the data payload. The Rust pool-aggregation HashMap keyed by the address
bytes is modelled as an association list; updates realize the same
key-to-value map, and the outputs are compared as sets of pools since
HashMap iteration order is unspecified. The source emits the address as
a 0x-prefixed hex string and the big integers as decimal strings — both
injective renamings that are kept as raw values here. -/

structure Log where
  address : List Byte
  topics : List (List Byte)
  data : List Byte
deriving DecidableEq

/-- dexes/universal-dex/src/common.rs SwapAggregation (Default = zeros).
swap_count is a u32, so its increment wraps modulo 2^32. -/
structure SwapAggregation where
  volume_token0 : Int
  volume_token1 : Int
  swap_count : Nat
  last_sqrt_price : Int
deriving DecidableEq

def defaultAggregation : SwapAggregation :=
  { volume_token0 := 0, volume_token1 := 0, swap_count := 0, last_sqrt_price := 0 }

abbrev AggMap := List (List Byte × SwapAggregation)

/-- HashMap entry(key).or_default() followed by an in-place update. -/
def updateAgg (m : AggMap) (k : List Byte) (f : SwapAggregation → SwapAggregation) :
    AggMap :=
  match m with
  | [] => [(k, f defaultAggregation)]
  | (k1, v) :: rest =>
      if k1 = k then (k1, f v) :: rest else (k1, v) :: updateAgg rest k f

def V2_SWAP_EVENT_SIG : List Byte :=
  [0xd7, 0x8a, 0xd9, 0x5f, 0xa4, 0x6c, 0x99, 0x4b, 0x65, 0x51, 0xd0, 0xda, 0x85, 0xfc,
   0x27, 0x5f, 0xe6, 0x13, 0xce, 0x37, 0x65, 0x7f, 0xb8, 0xd5, 0xe3, 0xd1, 0x30, 0x84,
   0x01, 0x59, 0xd8, 0x22]

def V2_SYNC_EVENT_SIG : List Byte :=
  [0x1c, 0x41, 0x1e, 0x9a, 0x96, 0xe0, 0x71, 0x24, 0x1c, 0x2f, 0x21, 0xf7, 0x72, 0x6b,
   0x17, 0xae, 0x89, 0xe3, 0xca, 0xb4, 0xc7, 0x8b, 0xe5, 0x0e, 0x06, 0x2b, 0x03, 0xa9,
   0xff, 0xfb, 0xba, 0xd1]

def UNISWAP_V3_SWAP_EVENT_SIG : List Byte :=
  [0xc4, 0x20, 0x79, 0xf9, 0x4a, 0x63, 0x50, 0xd7, 0xe6, 0x23, 0x5f, 0x29, 0x17, 0x49,
   0x24, 0xf9, 0x28, 0xcc, 0x2a, 0xc8, 0x18, 0xeb, 0x64, 0xfe, 0xd8, 0x00, 0x4e, 0x11,
   0x5f, 0xbc, 0xca, 0x67]

def PANCAKESWAP_V3_SWAP_EVENT_SIG : List Byte :=
  [0x19, 0xb4, 0x72, 0x79, 0x25, 0x6b, 0x2a, 0x23, 0xa1, 0x66, 0x5c, 0x81, 0x0c, 0x8d,
   0x55, 0xa1, 0x75, 0x89, 0x40, 0xee, 0x09, 0x37, 0x7d, 0x4f, 0x8d, 0x26, 0x49, 0x7a,
   0x35, 0x77, 0xdc, 0x83]

/-- dexes/universal-dex/src/v2.rs process_swap_event: guard on payload
and topic counts, then add amount0In + amount0Out to volume_token0,
amount1In + amount1Out to volume_token1, and bump the swap counter. -/
def v2_process_swap_event (log : Log) (m : AggMap) : AggMap :=
  if log.data.length < 128 ∨ log.topics.length < 3 then m
  else
    updateAgg m log.address fun e =>
      { e with
        volume_token0 := e.volume_token0
          + uint256_to_bigint ((log.data.drop 0).take 32)
          + uint256_to_bigint ((log.data.drop 64).take 32),
        volume_token1 := e.volume_token1
          + uint256_to_bigint ((log.data.drop 32).take 32)
          + uint256_to_bigint ((log.data.drop 96).take 32),
        swap_count := (e.swap_count + 1) % 4294967296 }

/-- dexes/universal-dex/src/v2.rs process_sync_event: guard on payload
length, then overwrite the derived square-root price from the two
uint112 reserves. -/
def v2_process_sync_event (log : Log) (m : AggMap) : AggMap :=
  if log.data.length < 64 then m
  else
    updateAgg m log.address fun e =>
      { e with
        last_sqrt_price :=
          calculate_sqrt_price_x96
            (uint112_to_bigint ((log.data.drop 0).take 32))
            (uint112_to_bigint ((log.data.drop 32).take 32)) }

/-- dexes/universal-dex/src/v3.rs process_swap_event: guard, absolute
signed amounts added to the volumes, counter bump, and last-write-wins
square-root price from the uint160 word. -/
def v3_process_swap_event (log : Log) (m : AggMap) : AggMap :=
  if log.data.length < 160 ∨ log.topics.length < 3 then m
  else
    updateAgg m log.address fun e =>
      { e with
        volume_token0 := e.volume_token0
          + (if int256_to_bigint ((log.data.drop 0).take 32) < 0 then
              -int256_to_bigint ((log.data.drop 0).take 32)
            else int256_to_bigint ((log.data.drop 0).take 32)),
        volume_token1 := e.volume_token1
          + (if int256_to_bigint ((log.data.drop 32).take 32) < 0 then
              -int256_to_bigint ((log.data.drop 32).take 32)
            else int256_to_bigint ((log.data.drop 32).take 32)),
        swap_count := (e.swap_count + 1) % 4294967296,
        last_sqrt_price := uint160_to_bigint ((log.data.drop 64).take 32) }

/-- dexes/universal-dex/src/lib.rs: the per-log routing on topics[0]. -/
def processLog (m : AggMap) (log : Log) : AggMap :=
  match log.topics with
  | [] => m
  | t0 :: _ =>
      if t0 = V2_SWAP_EVENT_SIG then v2_process_swap_event log m
      else if t0 = V2_SYNC_EVENT_SIG then v2_process_sync_event log m
      else if t0 = UNISWAP_V3_SWAP_EVENT_SIG ∨ t0 = PANCAKESWAP_V3_SWAP_EVENT_SIG then
        v3_process_swap_event log m
      else m

/-- An Ethereum block header holds an optional timestamp message. -/
structure BlockHeader where
  timestamp : Option Int

structure EthBlock where
  number : Nat
  header : Option BlockHeader
  logs : List Log

def blockTimestampSeconds (b : EthBlock) : Option Int :=
  match b.header with
  | none => none
  | some h => h.timestamp

structure PoolTicker where
  pool_address : List Byte
  block_volume_token0 : Int
  block_volume_token1 : Int
  swap_count : Nat
  sqrt_price_x96 : Int
  block_number : Nat
  timestamp : Nat
deriving DecidableEq

structure TickerOutput where
  tickers : List PoolTicker
deriving DecidableEq

def errMsgMissingTimestamp (n : Nat) : String :=
  "Block " ++ toString n ++ " missing header or timestamp"

/-- dexes/universal-dex/src/lib.rs map_dex_ticker_output: aggregate all
routed logs, fail the whole block when the header or its timestamp is
missing (the i64 seconds are reinterpreted as u64), otherwise emit one
ticker per aggregated pool. -/
def map_dex_ticker_output (b : EthBlock) : Except String TickerOutput :=
  let m := b.logs.foldl processLog []
  match blockTimestampSeconds b with
  | none => Except.error (errMsgMissingTimestamp b.number)
  | some ts =>
      Except.ok
        { tickers := m.map fun kv =>
            { pool_address := kv.1
              block_volume_token0 := kv.2.volume_token0
              block_volume_token1 := kv.2.volume_token1
              swap_count := kv.2.swap_count
              sqrt_price_x96 := kv.2.last_sqrt_price
              block_number := b.number
              timestamp := (ts % 2 ^ 64).toNat } }

/-- The pool addresses that receive a ticker record. -/
def emittedPools (b : EthBlock) : List (List Byte) :=
  match map_dex_ticker_output b with
  | Except.error _ => []
  | Except.ok out => out.tickers.map PoolTicker.pool_address

/-- From the spec: a well-formed swap event of either dialect. -/
def isWellFormedSwapLog (log : Log) : Bool :=
  match log.topics with
  | [] => false
  | t0 :: _ =>
      (decide (t0 = V2_SWAP_EVENT_SIG) && decide (128 ≤ log.data.length)
        && decide (3 ≤ log.topics.length))
      || ((decide (t0 = UNISWAP_V3_SWAP_EVENT_SIG)
            || decide (t0 = PANCAKESWAP_V3_SWAP_EVENT_SIG))
          && decide (160 ≤ log.data.length) && decide (3 ≤ log.topics.length))

/-- A log that creates or updates a pool-aggregation entry: a well-formed
swap of either dialect, or a well-formed constant-product sync. -/
def contributesToAggregation (log : Log) : Bool :=
  isWellFormedSwapLog log ||
  (match log.topics with
   | [] => false
   | t0 :: _ => decide (t0 = V2_SYNC_EVENT_SIG) && decide (64 ≤ log.data.length))

theorem mem_keys_updateAgg (m : AggMap) (k : List Byte)
    (f : SwapAggregation → SwapAggregation) (a : List Byte) :
    a ∈ (updateAgg m k f).map Prod.fst ↔ a ∈ m.map Prod.fst ∨ a = k := by
  induction m with
  | nil => simp [updateAgg]
  | cons kv rest ih =>
    obtain ⟨k1, v⟩ := kv
    rw [updateAgg]
    by_cases hk : k1 = k
    · rw [if_pos hk]
      subst hk
      simp only [List.map_cons, List.mem_cons]
      tauto
    · rw [if_neg hk]
      simp only [List.map_cons, List.mem_cons, ih]
      tauto

theorem mem_keys_v2_swap (log : Log) (m : AggMap) (a : List Byte) :
    a ∈ (v2_process_swap_event log m).map Prod.fst
      ↔ a ∈ m.map Prod.fst
        ∨ (128 ≤ log.data.length ∧ 3 ≤ log.topics.length ∧ log.address = a) := by
  by_cases hg : log.data.length < 128 ∨ log.topics.length < 3
  · rw [v2_process_swap_event, if_pos hg]
    constructor
    · exact Or.inl
    · rintro (h | ⟨h1, h2, _⟩)
      · exact h
      · omega
  · rw [v2_process_swap_event, if_neg hg]
    rw [mem_keys_updateAgg]
    constructor
    · rintro (h | h)
      · exact Or.inl h
      · exact Or.inr ⟨by omega, by omega, h.symm⟩
    · rintro (h | ⟨_, _, h⟩)
      · exact Or.inl h
      · exact Or.inr h.symm

theorem mem_keys_v2_sync (log : Log) (m : AggMap) (a : List Byte) :
    a ∈ (v2_process_sync_event log m).map Prod.fst
      ↔ a ∈ m.map Prod.fst ∨ (64 ≤ log.data.length ∧ log.address = a) := by
  by_cases hg : log.data.length < 64
  · rw [v2_process_sync_event, if_pos hg]
    constructor
    · exact Or.inl
    · rintro (h | ⟨h1, _⟩)
      · exact h
      · omega
  · rw [v2_process_sync_event, if_neg hg]
    rw [mem_keys_updateAgg]
    constructor
    · rintro (h | h)
      · exact Or.inl h
      · exact Or.inr ⟨by omega, h.symm⟩
    · rintro (h | ⟨_, h⟩)
      · exact Or.inl h
      · exact Or.inr h.symm

theorem mem_keys_v3_swap (log : Log) (m : AggMap) (a : List Byte) :
    a ∈ (v3_process_swap_event log m).map Prod.fst
      ↔ a ∈ m.map Prod.fst
        ∨ (160 ≤ log.data.length ∧ 3 ≤ log.topics.length ∧ log.address = a) := by
  by_cases hg : log.data.length < 160 ∨ log.topics.length < 3
  · rw [v3_process_swap_event, if_pos hg]
    constructor
    · exact Or.inl
    · rintro (h | ⟨h1, h2, _⟩)
      · exact h
      · omega
  · rw [v3_process_swap_event, if_neg hg]
    rw [mem_keys_updateAgg]
    constructor
    · rintro (h | h)
      · exact Or.inl h
      · exact Or.inr ⟨by omega, by omega, h.symm⟩
    · rintro (h | ⟨_, _, h⟩)
      · exact Or.inl h
      · exact Or.inr h.symm

theorem mem_keys_processLog (m : AggMap) (log : Log) (a : List Byte) :
    a ∈ (processLog m log).map Prod.fst
      ↔ a ∈ m.map Prod.fst
        ∨ (contributesToAggregation log = true ∧ log.address = a) := by
  have hn1 : ¬ V2_SWAP_EVENT_SIG = V2_SYNC_EVENT_SIG := by decide
  have hn1b : ¬ V2_SYNC_EVENT_SIG = V2_SWAP_EVENT_SIG := by decide
  have hn2 : ¬ V2_SWAP_EVENT_SIG = UNISWAP_V3_SWAP_EVENT_SIG := by decide
  have hn3 : ¬ V2_SWAP_EVENT_SIG = PANCAKESWAP_V3_SWAP_EVENT_SIG := by decide
  have hn4 : ¬ V2_SYNC_EVENT_SIG = UNISWAP_V3_SWAP_EVENT_SIG := by decide
  have hn5 : ¬ V2_SYNC_EVENT_SIG = PANCAKESWAP_V3_SWAP_EVENT_SIG := by decide
  cases htop : log.topics with
  | nil =>
    simp only [processLog, htop, contributesToAggregation, isWellFormedSwapLog]
    simp
  | cons t0 ts =>
    simp only [processLog, htop]
    by_cases h1 : t0 = V2_SWAP_EVENT_SIG
    · rw [if_pos h1]
      rw [mem_keys_v2_swap]
      subst h1
      simp only [contributesToAggregation, isWellFormedSwapLog, htop]
      simp [hn1, hn2, hn3]
      try tauto
    · rw [if_neg h1]
      by_cases h2 : t0 = V2_SYNC_EVENT_SIG
      · rw [if_pos h2]
        rw [mem_keys_v2_sync]
        subst h2
        simp only [contributesToAggregation, isWellFormedSwapLog, htop]
        simp [hn1b, hn4, hn5]
        try tauto
      · rw [if_neg h2]
        by_cases h3 : t0 = UNISWAP_V3_SWAP_EVENT_SIG ∨ t0 = PANCAKESWAP_V3_SWAP_EVENT_SIG
        · rw [if_pos h3]
          rw [mem_keys_v3_swap]
          simp only [contributesToAggregation, isWellFormedSwapLog, htop]
          have ht0 : (decide (t0 = UNISWAP_V3_SWAP_EVENT_SIG)
              || decide (t0 = PANCAKESWAP_V3_SWAP_EVENT_SIG)) = true := by
            rcases h3 with h3 | h3 <;> simp [h3]
          simp [h1, h2, ht0]
          try tauto
        · rw [if_neg h3]
          push_neg at h3
          simp only [contributesToAggregation, isWellFormedSwapLog, htop]
          simp [h1, h2, h3.1, h3.2]

/-- C4 (amended): with the block timestamp present, the set of pool
addresses receiving a ticker record is exactly the set of pools with at
least one well-formed swap OR one well-formed constant-product sync
event in the block; in particular a pool touched only by a sync event is
emitted (with zero swaps). -/
theorem map_dex_ticker_output_pool_set (b : EthBlock) (a : List Byte)
    (h : blockTimestampSeconds b ≠ none) :
    a ∈ emittedPools b
      ↔ ∃ log ∈ b.logs, contributesToAggregation log = true ∧ log.address = a := by
  obtain ⟨ts, hts⟩ : ∃ ts, blockTimestampSeconds b = some ts := by
    cases hh : blockTimestampSeconds b with
    | none => exact absurd hh h
    | some ts => exact ⟨ts, rfl⟩
  have hfold : ∀ (logs : List Log) (m : AggMap),
      a ∈ (logs.foldl processLog m).map Prod.fst
        ↔ a ∈ m.map Prod.fst
          ∨ ∃ log ∈ logs, contributesToAggregation log = true ∧ log.address = a := by
    intro logs
    induction logs with
    | nil => intro m; simp
    | cons lg rest ih =>
      intro m
      rw [List.foldl_cons, ih, mem_keys_processLog]
      simp only [List.mem_cons]
      constructor
      · rintro ((h | h) | ⟨lg2, hmem, hc⟩)
        · exact Or.inl h
        · exact Or.inr ⟨lg, Or.inl rfl, h⟩
        · exact Or.inr ⟨lg2, Or.inr hmem, hc⟩
      · rintro (h | ⟨lg2, hmem | hmem, hc⟩)
        · exact Or.inl (Or.inl h)
        · subst hmem; exact Or.inl (Or.inr hc)
        · exact Or.inr ⟨lg2, hmem, hc⟩
  have hout : emittedPools b
      = ((b.logs.foldl processLog []).map Prod.fst) := by
    rw [emittedPools, map_dex_ticker_output]
    rw [hts]
    simp [List.map_map, Function.comp]
  rw [hout, hfold b.logs []]
  simp

def exSyncBlock : EthBlock :=
  { number := 7
    header := some { timestamp := some 1000 }
    logs := [ { address := [0xaa]
                topics := [V2_SYNC_EVENT_SIG]
                data := List.replicate 64 0 } ] }

/-- C4 counterexample: a block whose only event is a well-formed
constant-product sync on pool 0xaa has no well-formed swap anywhere, yet
the handler emits a ticker record for exactly that pool. -/
theorem sync_only_pool_ticker_counterexample :
    exSyncBlock.logs.filter isWellFormedSwapLog = [] ∧
    emittedPools exSyncBlock = [[0xaa]] := by
  refine ⟨by decide, by decide⟩

/-- C4 witness for the amended statement at the sync-only block. -/
theorem map_dex_ticker_output_pool_set_witness :
    blockTimestampSeconds exSyncBlock ≠ none ∧
    ([0xaa] ∈ emittedPools exSyncBlock
      ↔ ∃ log ∈ exSyncBlock.logs,
          contributesToAggregation log = true ∧ log.address = [0xaa]) :=
  ⟨by decide, map_dex_ticker_output_pool_set exSyncBlock [0xaa] (by decide)⟩

/-- C8: a constant-product swap log whose payload is shorter than 128
bytes or that has fewer than three topics leaves the pool-aggregation
map exactly unchanged: no volume, no counter bump, no new entry. -/
theorem v2_swap_malformed_skip (log : Log) (m : AggMap)
    (h : log.data.length < 128 ∨ log.topics.length < 3) :
    v2_process_swap_event log m = m := by
  rw [v2_process_swap_event, if_pos h]

def ex127Log : Log :=
  { address := [0xbb]
    topics := [V2_SWAP_EVENT_SIG, List.replicate 32 0, List.replicate 32 0]
    data := List.replicate 127 0 }

/-- C8 witness: a 127-byte constant-product swap payload is skipped. -/
theorem v2_swap_malformed_skip_witness :
    (ex127Log.data.length < 128 ∨ ex127Log.topics.length < 3) ∧
    v2_process_swap_event ex127Log [] = [] :=
  ⟨by decide, v2_swap_malformed_skip ex127Log [] (by decide)⟩

/-! ## Uniswap-v3 period-bucket and rolling-volume stores
(dexes/uniswap-v3/src/stores)

The handlers consume uniswap.types.v1 Events whose swap events carry the
amounts as decimal strings; the source parses each string with
BigDecimal::from_str after trimming every leading minus sign and skips
the amount when parsing fails. The parse outcome is modelled directly as
an optional BigDec value (a trimmed string never parses to a negative
value; the concrete inputs below use plain non-negative integers).
Store keys built by the source as "pool:period:t0" strings are modelled
as structured tuples — for the colon-free pool addresses used
throughout, the string encoding is injective. Store modules run in
dependency DAG order within a block, so the rolling handler's get_last
on the period store observes the period writes of the current block. -/

/-- The bigdecimal crate's representation: an integer mantissa with a
base-10 scale; the value is mantissa / 10^scale. Addition aligns to the
larger scale, subtraction negates and adds, and the comparison with
BigDecimal::zero() used by is_zero holds exactly when the mantissa is
zero. -/
structure BigDec where
  mantissa : Int
  scale : Nat
deriving DecidableEq

def BigDec.zero : BigDec := { mantissa := 0, scale := 0 }

def BigDec.add (a b : BigDec) : BigDec :=
  if a.scale ≤ b.scale then
    { mantissa := a.mantissa * 10 ^ (b.scale - a.scale) + b.mantissa, scale := b.scale }
  else
    { mantissa := a.mantissa + b.mantissa * 10 ^ (a.scale - b.scale), scale := a.scale }

def BigDec.sub (a b : BigDec) : BigDec :=
  a.add { mantissa := -b.mantissa, scale := b.scale }

/-- dexes/uniswap-v3/src/utils.rs is_zero: equality with
BigDecimal::zero(), i.e. a zero mantissa. -/
def BigDec.isZero (a : BigDec) : Bool := a.mantissa = 0

/-- The decimal value a BigDec denotes. -/
def BigDec.toRat (a : BigDec) : ℚ := (a.mantissa : ℚ) / 10 ^ a.scale

structure SwapEvent where
  amount_0 : Option BigDec
  amount_1 : Option BigDec

/-- pool_event::Type: only the Swap variant is read by these handlers;
every other variant is collapsed. -/
inductive PoolEventType where
  | swap (s : SwapEvent)
  | otherEvent

structure PoolEvent where
  pool_address : String
  type : Option PoolEventType

structure Events where
  pool_events : List PoolEvent

def BUCKET_DURATION_SECONDS : Nat := 300

def BUCKETS_PER_DAY : Nat := 288

/-- substreams StoreGet get_last: last value written for the key, none
when the key was never written. -/
def storeGetLast {κ : Type} [DecidableEq κ] (s : List (κ × BigDec)) (k : κ) :
    Option BigDec :=
  match s.find? (fun kv => kv.1 = k) with
  | none => none
  | some kv => some kv.2

/-- substreams StoreAdd add: accumulate into the keyed slot (a missing
slot starts from the delta itself). -/
def storeAdd {κ : Type} [DecidableEq κ] (s : List (κ × BigDec)) (k : κ) (v : BigDec) :
    List (κ × BigDec) :=
  match s with
  | [] => [(k, v)]
  | kv :: rest =>
      if kv.1 = k then (kv.1, kv.2.add v) :: rest else kv :: storeAdd rest k v

/-- Period-bucket key: (pool address, period index, token0 flag);
the source renders it as the string pool:period:t0 / pool:period:t1. -/
abbrev PeriodKey := String × Nat × Bool

/-- Rolling-total key: (pool address, token0 flag); rendered pool:t0 /
pool:t1 by the source. -/
abbrev RollKey := String × Bool

abbrev PeriodStore := List (PeriodKey × BigDec)

abbrev RollStore := List (RollKey × BigDec)

/-- header.timestamp.seconds with unwrap_or(0), reinterpreted as u64. -/
def timestampSecondsOrZero (b : EthBlock) : Nat :=
  match blockTimestampSeconds b with
  | none => 0
  | some ts => (ts % 2 ^ 64).toNat

/-- The accumulation loop of store_period_volumes at a fixed period. -/
def store_period_volumes_at (period : Nat) (events : Events) (store : PeriodStore) :
    PeriodStore :=
  events.pool_events.foldl (fun st ev =>
    match ev.type with
    | some (PoolEventType.swap sw) =>
        let st1 := match sw.amount_0 with
          | some v =>
              if v.isZero then st else storeAdd st (ev.pool_address, period, true) v
          | none => st
        match sw.amount_1 with
        | some v =>
            if v.isZero then st1 else storeAdd st1 (ev.pool_address, period, false) v
        | none => st1
    | _ => st) store

/-- dexes/uniswap-v3/src/stores/period_volumes.rs store_period_volumes:
bucket the block's swap volumes additively under the block's period. -/
def store_period_volumes (b : EthBlock) (events : Events) (store : PeriodStore) :
    PeriodStore :=
  store_period_volumes_at (timestampSecondsOrZero b / BUCKET_DURATION_SECONDS)
    events store

/-- The per-block pool delta accumulator of store_rolling_deltas
(HashMap entry.or_insert((0,0)) with in-place accumulation). -/
def updateDeltaEntry (acc : List (String × BigDec × BigDec)) (pool : String)
    (f : BigDec × BigDec → BigDec × BigDec) : List (String × BigDec × BigDec) :=
  match acc with
  | [] => [(pool, f (BigDec.zero, BigDec.zero))]
  | (p, d) :: rest =>
      if p = pool then (p, f d) :: rest else (p, d) :: updateDeltaEntry rest pool f

def accumulateDeltas (events : Events) : List (String × BigDec × BigDec) :=
  events.pool_events.foldl (fun acc ev =>
    match ev.type with
    | some (PoolEventType.swap sw) =>
        updateDeltaEntry acc ev.pool_address fun d =>
          let d0 := match sw.amount_0 with
            | some v => if v.isZero then d.1 else d.1.add v
            | none => d.1
          let d1 := match sw.amount_1 with
            | some v => if v.isZero then d.2 else d.2.add v
            | none => d.2
          (d0, d1)
    | _ => acc) []

/-- The eviction-and-add loop of store_rolling_deltas at a fixed
period. -/
def store_rolling_deltas_at (period : Nat) (events : Events)
    (period_volumes_store : PeriodStore) (rolling : RollStore) : RollStore :=
  let evict_period := period - BUCKETS_PER_DAY
  (accumulateDeltas events).foldl (fun roll pd =>
    let ev0 := (storeGetLast period_volumes_store (pd.1, evict_period, true)).getD
      BigDec.zero
    let ev1 := (storeGetLast period_volumes_store (pd.1, evict_period, false)).getD
      BigDec.zero
    let roll1 := if ev0.isZero then roll
      else storeAdd roll (pd.1, true) (BigDec.zero.sub ev0)
    let roll2 := if ev1.isZero then roll1
      else storeAdd roll1 (pd.1, false) (BigDec.zero.sub ev1)
    let roll3 := if pd.2.1.isZero then roll2 else storeAdd roll2 (pd.1, true) pd.2.1
    if pd.2.2.isZero then roll3 else storeAdd roll3 (pd.1, false) pd.2.2) rolling

/-- dexes/uniswap-v3/src/stores/rolling_deltas.rs store_rolling_deltas:
for each pool with a swap event this block, subtract the bucket at
evict_period = period − BUCKETS_PER_DAY (u64 saturating_sub, modelled by
Nat subtraction) when non-zero, then add the block's deltas. -/
def store_rolling_deltas (b : EthBlock) (events : Events)
    (period_volumes_store : PeriodStore) (rolling : RollStore) : RollStore :=
  store_rolling_deltas_at (timestampSecondsOrZero b / BUCKET_DURATION_SECONDS)
    events period_volumes_store rolling

/-- One block of the store pipeline: the period store runs first, the
rolling handler then reads it (get mode sees the current block's
writes). -/
def processStores (b : EthBlock) (events : Events)
    (st : PeriodStore × RollStore) : PeriodStore × RollStore :=
  let p := store_period_volumes b events st.1
  (p, store_rolling_deltas b events p st.2)

def runStores (blocks : List (EthBlock × Events)) : PeriodStore × RollStore :=
  blocks.foldl (fun st be => processStores be.1 be.2 st) ([], [])

/-- The spec's invariant right-hand side: the sum of the period buckets
over the window (P − BUCKETS_PER_DAY, P]. -/
def windowSum (store : PeriodStore) (pool : String) (P : Nat) (tok : Bool) : BigDec :=
  (((List.range BUCKETS_PER_DAY).filterMap fun i =>
      if i ≤ P then some (P - i) else none).map
    fun p => (storeGetLast store (pool, p, tok)).getD BigDec.zero).foldr
    BigDec.add BigDec.zero

/-! ### Concrete block sequences for the rolling-window claims -/

def swapEvt (a0 a1 : Int) : PoolEvent :=
  { pool_address := "p"
    type := some (PoolEventType.swap
      { amount_0 := some { mantissa := a0, scale := 0 }
        amount_1 := some { mantissa := a1, scale := 0 } }) }

def mkBlock (ts : Int) : EthBlock :=
  { number := 0, header := some { timestamp := some ts }, logs := [] }

def evsOf (a0 : Int) : Events := { pool_events := [swapEvt a0 0] }

/-- Three blocks on one pool: volume 10 at period 0, then volume 1 at
periods 1 and 2. -/
def c1Run : PeriodStore × RollStore :=
  runStores [(mkBlock 0, evsOf 10), (mkBlock 300, evsOf 1), (mkBlock 600, evsOf 1)]

/-- C1: after three blocks in periods 0, 1, 2 of a single pool (volumes
10, 1, 1), the rolling total is −18 while the window sum of the period
buckets over (2 − 288, 2] is 12: the saturated evict-period-0 bucket is
subtracted at every active block — even at the block that wrote it —
rather than exactly once, so the claimed invariant fails. -/
theorem rolling_invariant_violated :
    storeGetLast c1Run.2 ("p", true) = some { mantissa := -18, scale := 0 } ∧
    windowSum c1Run.1 "p" 2 true = { mantissa := 12, scale := 0 } ∧
    ¬ (storeGetLast c1Run.2 ("p", true)).getD BigDec.zero
        = windowSum c1Run.1 "p" 2 true := by
  refine ⟨by decide, by decide, by decide⟩

/-- C3: on the same three blocks the rolling total's value is −18 < 0:
the repeated eviction drives the total negative even though every
recorded volume is positive. -/
theorem rolling_total_goes_negative :
    BigDec.toRat ((storeGetLast c1Run.2 ("p", true)).getD BigDec.zero) < 0 := by
  have h : storeGetLast c1Run.2 ("p", true)
      = some { mantissa := -18, scale := 0 } := by
    decide
  rw [h]
  norm_num [Option.getD, BigDec.toRat]

/-! ### C2: one block per period with constant volume from period 0 -/

def c2Blocks (n : Nat) : List (EthBlock × Events) :=
  (List.range n).map fun p : Nat => (mkBlock (300 * (p : Int)), evsOf 1)

/-- The period store after n such blocks: one bucket of volume 1 per
period 0 .. n−1. -/
def PSn (n : Nat) : PeriodStore :=
  (List.range n).map fun i => (("p", i, true), { mantissa := 1, scale := 0 })

def rollZero : RollStore := [(("p", true), BigDec.zero)]

theorem storeAdd_append_of_not_mem {κ : Type} [DecidableEq κ]
    (s : List (κ × BigDec)) (k : κ) (v : BigDec) (h : ∀ kv ∈ s, ¬ kv.1 = k) :
    storeAdd s k v = s ++ [(k, v)] := by
  induction s with
  | nil => rfl
  | cons kv rest ih =>
    rw [storeAdd, if_neg (h kv (List.mem_cons_self _ _)),
      ih (fun kv2 hm => h kv2 (List.mem_cons_of_mem _ hm))]
    rfl

theorem storeGetLast_cons_self {κ : Type} [DecidableEq κ] (k : κ) (v : BigDec)
    (s : List (κ × BigDec)) : storeGetLast ((k, v) :: s) k = some v := by
  rw [storeGetLast]
  simp

theorem storeGetLast_eq_none {κ : Type} [DecidableEq κ] (s : List (κ × BigDec))
    (k : κ) (h : ∀ kv ∈ s, ¬ kv.1 = k) : storeGetLast s k = none := by
  rw [storeGetLast]
  have : s.find? (fun kv => kv.1 = k) = none := by
    rw [List.find?_eq_none]
    intro kv hm
    simpa using h kv hm
  rw [this]

theorem PSn_keys (n : Nat) :
    ∀ kv ∈ PSn n, ∃ i, i < n ∧ kv.1 = ("p", i, true) := by
  intro kv hm
  rw [PSn] at hm
  rw [List.mem_map] at hm
  obtain ⟨i, hi, hkv⟩ := hm
  rw [List.mem_range] at hi
  exact ⟨i, hi, by rw [← hkv]⟩

/-- The block at timestamp 300·n lands in period n (all period indices
used here are far below the u64 wrap). -/
theorem period_of_c2_block (n : Nat) (hn : n < 2 ^ 32) :
    timestampSecondsOrZero (mkBlock (300 * (n : Int))) / BUCKET_DURATION_SECONDS
      = n := by
  have h1 : blockTimestampSeconds (mkBlock (300 * (n : Int)))
      = some (300 * (n : Int)) := rfl
  simp only [timestampSecondsOrZero, h1]
  have hb : (300 : Int) * (n : Int) < 2 ^ 64 := by
    have hcast : (n : Int) < 2 ^ 32 := by exact_mod_cast hn
    nlinarith
  have h2 : (300 * (n : Int)) % 2 ^ 64 = 300 * (n : Int) :=
    Int.emod_eq_of_lt (by positivity) hb
  rw [h2]
  have h3 : (300 * (n : Int)).toNat = 300 * n := by
    rw [show (300 : Int) * (n : Int) = ((300 * n : Nat) : Int) by push_cast; ring,
      Int.toNat_natCast]
  rw [h3, BUCKET_DURATION_SECONDS]
  exact Nat.mul_div_cancel_left n (by norm_num)

theorem period_step (n : Nat) :
    store_period_volumes_at n (evsOf 1) (PSn n) = PSn (n + 1) := by
  have hkey : ∀ kv ∈ PSn n, ¬ kv.1 = ("p", n, true) := by
    intro kv hm
    obtain ⟨i, hi, hkv⟩ := PSn_keys n kv hm
    rw [hkv]
    simp
    omega
  rw [store_period_volumes_at]
  simp only [evsOf, swapEvt, List.foldl_cons, List.foldl_nil, BigDec.isZero]
  norm_num
  rw [storeAdd_append_of_not_mem _ _ _ hkey]
  rw [PSn, PSn, List.range_succ, List.map_append]
  rfl

theorem storeGetLast_PSn_zero (n : Nat) (hn : 0 < n) :
    storeGetLast (PSn n) ("p", 0, true) = some { mantissa := 1, scale := 0 } := by
  cases n with
  | zero => omega
  | succ m =>
    rw [PSn, List.range_succ_eq_map, List.map_cons]
    exact storeGetLast_cons_self _ _ _

theorem storeGetLast_PSn_false (n : Nat) (k2 : Nat) :
    storeGetLast (PSn n) ("p", k2, false) = none := by
  apply storeGetLast_eq_none
  intro kv hm
  obtain ⟨i, hi, hkv⟩ := PSn_keys n kv hm
  rw [hkv]
  simp

theorem rolling_step (n : Nat) (hev : n - BUCKETS_PER_DAY = 0) :
    store_rolling_deltas_at n (evsOf 1) (PSn (n + 1)) rollZero = rollZero := by
  have haccum : accumulateDeltas (evsOf 1)
      = [("p", ({ mantissa := 1, scale := 0 }, { mantissa := 0, scale := 0 }))] := by
    decide
  rw [store_rolling_deltas_at, hev, haccum]
  simp only [List.foldl_cons, List.foldl_nil]
  rw [storeGetLast_PSn_zero (n + 1) (by omega), storeGetLast_PSn_false]
  decide

theorem c2_run_eq : ∀ n, 1 ≤ n → n ≤ BUCKETS_PER_DAY →
    runStores (c2Blocks n) = (PSn n, rollZero) := by
  intro n
  induction n with
  | zero => intro h1 h2; omega
  | succ m ih =>
    intro h1 h2
    by_cases hm : m = 0
    · subst hm
      decide
    · have hm1 : 1 ≤ m := by omega
      have hm2 : m ≤ BUCKETS_PER_DAY := by
        rw [BUCKETS_PER_DAY] at h2 ⊢
        omega
      have hrec := ih hm1 hm2
      have hsplit : c2Blocks (m + 1)
          = c2Blocks m ++ [(mkBlock (300 * (m : Int)), evsOf 1)] := by
        rw [c2Blocks, c2Blocks, List.range_succ, List.map_append]
        rfl
      rw [hsplit, runStores, List.foldl_append]
      rw [show (List.foldl (fun st be => processStores be.1 be.2 st) ([], [])
          (c2Blocks m)) = runStores (c2Blocks m) from rfl, hrec]
      rw [List.foldl_cons, List.foldl_nil]
      have hm32 : m < 2 ^ 32 := by
        rw [BUCKETS_PER_DAY] at h2
        omega
      have hper : store_period_volumes (mkBlock (300 * (m : Int))) (evsOf 1) (PSn m)
          = PSn (m + 1) := by
        rw [store_period_volumes, period_of_c2_block m hm32, period_step]
      have hevict : m - BUCKETS_PER_DAY = 0 := by
        rw [BUCKETS_PER_DAY] at h2 ⊢
        omega
      have hroll : store_rolling_deltas (mkBlock (300 * (m : Int))) (evsOf 1)
          (PSn (m + 1)) rollZero = rollZero := by
        rw [store_rolling_deltas, period_of_c2_block m hm32, rolling_step m hevict]
      rw [processStores]
      simp only []
      rw [hper, hroll]

/-- C2: with one block per period carrying volume V = 1 for 288
consecutive periods starting at period 0, the rolling total after the
block of period 287 is 0, not 288·V: at every one of these blocks the
saturated evict period is 0, and the period-0 bucket — visible to
get_last as soon as it is written — is subtracted again before the
block's delta is added, so the total never grows. -/
theorem rolling_total_stuck_at_zero :
    storeGetLast (runStores (c2Blocks 288)).2 ("p", true) = some BigDec.zero ∧
    ¬ BigDec.toRat ((storeGetLast (runStores (c2Blocks 288)).2 ("p", true)).getD
        BigDec.zero) = 288 * 1 := by
  have h := c2_run_eq 288 (by norm_num) (by rw [BUCKETS_PER_DAY])
  rw [h]
  have h2 : storeGetLast (PSn 288, rollZero).2 ("p", true) = some BigDec.zero := by
    decide
  refine ⟨h2, ?_⟩
  rw [h2]
  norm_num [Option.getD, BigDec.toRat, BigDec.zero]

/-! ### C7: missing block header or timestamp -/

def noHeaderBlock : EthBlock := { number := 3, header := none, logs := [] }

/-- C7 counterexample: a missing header is not fatal for the uniswap-v3
bucket store handler — instead of performing no store mutation, it
defaults the timestamp to 0 and writes the block's swap volume into the
period-0 bucket. -/
theorem missing_timestamp_store_mutation :
    blockTimestampSeconds noHeaderBlock = none ∧
    store_period_volumes noHeaderBlock (evsOf 5) []
      = [(("p", 0, true), { mantissa := 5, scale := 0 })] ∧
    ¬ store_period_volumes noHeaderBlock (evsOf 5) [] = [] := by
  refine ⟨rfl, by decide, by decide⟩

/-- C7 (amended): when the header or its timestamp is missing, the
universal-dex map handler fails the whole block (so nothing is emitted),
but the uniswap-v3 store handlers do not fail: they treat the timestamp
as 0 and perform their store writes as if the block were in period 0. -/
theorem missing_timestamp_behavior (b : EthBlock) (events : Events)
    (ps : PeriodStore) (rs : RollStore)
    (h : blockTimestampSeconds b = none) :
    map_dex_ticker_output b = Except.error (errMsgMissingTimestamp b.number) ∧
    store_period_volumes b events ps = store_period_volumes_at 0 events ps ∧
    store_rolling_deltas b events ps rs
      = store_rolling_deltas_at 0 events ps rs := by
  have hts : timestampSecondsOrZero b = 0 := by
    simp only [timestampSecondsOrZero, h]
  refine ⟨?_, ?_, ?_⟩
  · simp only [map_dex_ticker_output, h]
  · rw [store_period_volumes, hts, Nat.zero_div]
  · rw [store_rolling_deltas, hts, Nat.zero_div]

/-- C7 witness at a concrete headerless block. -/
theorem missing_timestamp_behavior_witness :
    blockTimestampSeconds noHeaderBlock = none ∧
    map_dex_ticker_output noHeaderBlock
      = Except.error (errMsgMissingTimestamp noHeaderBlock.number) :=
  ⟨rfl, (missing_timestamp_behavior noHeaderBlock (evsOf 5) [] [] rfl).1⟩
